import Mathlib

/-!
Verification development for the cinema-programme site (cinema-morvan).

The JavaScript sources embedded here:
* `src/app.js` — the schedule page: `parseTimeToMinutes`, `normalize`,
  `moviesByTitle`, `buildFilteredList`.
* `src/unnamed/part_002` — the movie-detail page: `normalize`, `findMovie`.
* `src/trailer-utils.js` — three concatenated scripts: the trailer URL
  validator (`getValidatedTrailerUrl`), an alternate schedule script with a
  minutes-required `parseTimeToMinutes`, and a second schedule variant whose
  `normalize`/`parseTimeToMinutes` match `part_002`/`app.js`.
* `src/unnamed/part_000` — the extraction prompts (page extraction and the
  cross-page merge/dedup); the extraction pipeline itself has no code in the
  repository, so those parts are modelled from the specification.

Strings are embedded as Lean `String`s and their underlying `List Char`
(Unicode code points; identical to UTF-16 units on the BMP repertoire the
site handles).
-/

/-! ## Character-level primitives shared by the JS sources -/

/-- Model of `String.prototype.toLowerCase` on the ASCII and Latin-1
repertoire handled by the site: `A`–`Z` and `À`–`Þ` (except `×`) map down by
32, `Ÿ` maps to `ÿ`; every other supported character is fixed. -/
def jsLower (c : Char) : Char :=
  if 65 ≤ c.toNat ∧ c.toNat ≤ 90 then Char.ofNat (c.toNat + 32)
  else if 192 ≤ c.toNat ∧ c.toNat ≤ 222 ∧ c.toNat ≠ 215 then Char.ofNat (c.toNat + 32)
  else if c.toNat = 376 then Char.ofNat 255
  else c

/-- Model of `String.prototype.toUpperCase` on the same repertoire. -/
def jsUpper (c : Char) : Char :=
  if 97 ≤ c.toNat ∧ c.toNat ≤ 122 then Char.ofNat (c.toNat - 32)
  else if 224 ≤ c.toNat ∧ c.toNat ≤ 254 ∧ c.toNat ≠ 247 then Char.ofNat (c.toNat - 32)
  else c

/-- Canonical decomposition table for the lowercased Latin-1 letters the
programme uses (the JS pipelines lowercase before calling
`normalize('NFD')`, so lower-case entries suffice). Keys are code points,
values the NFD decomposition. -/
def nfdTable : List (Nat × List Char) :=
  [ (0xE0, ['a', Char.ofNat 0x300]), (0xE1, ['a', Char.ofNat 0x301]),
    (0xE2, ['a', Char.ofNat 0x302]), (0xE3, ['a', Char.ofNat 0x303]),
    (0xE4, ['a', Char.ofNat 0x308]), (0xE5, ['a', Char.ofNat 0x30A]),
    (0xE7, ['c', Char.ofNat 0x327]), (0xE8, ['e', Char.ofNat 0x300]),
    (0xE9, ['e', Char.ofNat 0x301]), (0xEA, ['e', Char.ofNat 0x302]),
    (0xEB, ['e', Char.ofNat 0x308]), (0xEC, ['i', Char.ofNat 0x300]),
    (0xED, ['i', Char.ofNat 0x301]), (0xEE, ['i', Char.ofNat 0x302]),
    (0xEF, ['i', Char.ofNat 0x308]), (0xF1, ['n', Char.ofNat 0x303]),
    (0xF2, ['o', Char.ofNat 0x300]), (0xF3, ['o', Char.ofNat 0x301]),
    (0xF4, ['o', Char.ofNat 0x302]), (0xF5, ['o', Char.ofNat 0x303]),
    (0xF6, ['o', Char.ofNat 0x308]), (0xF9, ['u', Char.ofNat 0x300]),
    (0xFA, ['u', Char.ofNat 0x301]), (0xFB, ['u', Char.ofNat 0x302]),
    (0xFC, ['u', Char.ofNat 0x308]), (0xFD, ['y', Char.ofNat 0x301]),
    (0xFF, ['y', Char.ofNat 0x308]) ]

/-- Model of `String.prototype.normalize('NFD')` acting on one character of
the supported repertoire (ASCII, combining marks and lowercased Latin-1).
Every key of `nfdTable` is at least `0xE0`, so the guard changes nothing. -/
def nfdChar (c : Char) : List Char :=
  if c.toNat < 0xE0 then [c]
  else
    match nfdTable.lookup c.toNat with
    | some ds => ds
    | none => [c]

/-- The character class `[a-z0-9]` of the JS `normalize` functions. -/
def isLowerAlnum (c : Char) : Bool :=
  (decide (97 ≤ c.toNat) && decide (c.toNat ≤ 122)) ||
    (decide (48 ≤ c.toNat) && decide (c.toNat ≤ 57))

/-- The combining-mark range `[̀-ͯ]` stripped by `normalize` in
`src/app.js`. -/
def isCombining (c : Char) : Bool :=
  decide (0x300 ≤ c.toNat) && decide (c.toNat ≤ 0x36F)

/-- The Unicode `\p{Diacritic}` property (as matched by the `normalize`
functions of `src/unnamed/part_002` and the third script in
`src/trailer-utils.js`), restricted to the supported repertoire: on
ASCII/Latin-1 the property holds exactly for `^`, `` ` ``, `¨`, `¯`, `´`,
`·`, `¸`, and it holds on all of `[̀-ͯ]`. -/
def jsDiacritic (c : Char) : Bool :=
  isCombining c || decide (c.toNat = 0x5E) || decide (c.toNat = 0x60) ||
    decide (c.toNat = 0xA8) || decide (c.toNat = 0xAF) ||
    decide (c.toNat = 0xB4) || decide (c.toNat = 0xB7) ||
    decide (c.toNat = 0xB8)

/-- The JS `\s` whitespace class restricted to the code points that can
reach the `replace(/\s+/g, ' ')` and `trim()` stages of the pipelines
(after the `[^a-z0-9]+` replacement only `' '` can still occur, so this
subset of `\s` is behaviour-identical). -/
def isJsSpace (c : Char) : Bool :=
  decide (c.toNat = 32) || (decide (9 ≤ c.toNat) && decide (c.toNat ≤ 13)) ||
    decide (c.toNat = 160) || decide (c.toNat = 0xFEFF)

/-- Model of `String.prototype.replace(/X+/g, ' ')` for a character class
`p`: each maximal run of characters satisfying `p` becomes a single space.
The flag `inRun` records whether the previous character belonged to the
current run. -/
def replaceRunsAux (p : Char → Bool) (inRun : Bool) : List Char → List Char
  | [] => []
  | c :: rest =>
    if p c then
      if inRun then replaceRunsAux p true rest
      else ' ' :: replaceRunsAux p true rest
    else c :: replaceRunsAux p false rest

/-- Replace every maximal run of characters satisfying `p` by one space. -/
def replaceRuns (p : Char → Bool) (l : List Char) : List Char :=
  replaceRunsAux p false l

/-- Model of `String.prototype.trim`: drop whitespace from both ends. -/
def trimEnds (l : List Char) : List Char :=
  List.dropWhile isJsSpace ((List.dropWhile isJsSpace l.reverse).reverse)

/-- The common shape of the JS `normalize` functions
(`value.toLowerCase().normalize('NFD').replace(strip, '')
.replace(/[^a-z0-9]+/g, ' ').replace(/\s+/g, ' ').trim()`), parameterised
by the diacritic-stripping class `strip`. -/
def normalizeListWith (strip : Char → Bool) (l : List Char) : List Char :=
  trimEnds (replaceRuns isJsSpace
    (replaceRuns (fun c => !isLowerAlnum c)
      (((l.map jsLower).flatMap nfdChar).filter (fun c => !strip c))))

/-- The `normalize` of `src/app.js` lines 84–91: strips the combining range
`[̀-ͯ]`. -/
def normalizeApp (s : String) : String :=
  ⟨normalizeListWith isCombining s.data⟩

/-- The `normalize` of the movie-detail page `src/unnamed/part_002` lines
3–10: strips `\p{Diacritic}`. -/
def normalizePage (s : String) : String :=
  ⟨normalizeListWith jsDiacritic s.data⟩

/-- The `normalize` of the third script in `src/trailer-utils.js` lines
614–621; its source text is identical to the one in `part_002`. -/
def normalizeTrailer (s : String) : String :=
  ⟨normalizeListWith jsDiacritic s.data⟩

/-- Output shape of a JS `normalize`: only lowercase ASCII alphanumerics and
spaces, no two adjacent spaces, no leading or trailing space. -/
def NormShape (l : List Char) : Prop :=
  (∀ c ∈ l, isLowerAlnum c = true ∨ c = ' ') ∧
    l.Chain' (fun a b => ¬(a = ' ' ∧ b = ' ')) ∧
    l.head? ≠ some ' ' ∧ l.getLast? ≠ some ' '

/-! ## Time parsing (`parseTimeToMinutes`) -/

/-- Numeric value of an ASCII digit character. -/
def dval (c : Char) : Nat := c.toNat - 48

/-- The case-insensitive `h` marker of the time regexes (`/…h…/i`). -/
def hMark (c : Char) : Bool := c = 'h' || c = 'H'

/-- Optional-minutes group `(\d{2})?`: two leading digits if present. -/
def minutesOpt : List Char → Option Nat
  | m1 :: m2 :: _ => if m1.isDigit && m2.isDigit then some (dval m1 * 10 + dval m2) else none
  | _ => none

/-- Attempt of the regex `/(\d{1,2})h(\d{2})?/i` anchored at the head of
`cs`, with JS backtracking: the greedy two-digit hour is tried first, then
the one-digit hour; the optional minutes group never fails. Returns the
captured hour and optional minutes. -/
def timeMatchAt (cs : List Char) : Option (Nat × Option Nat) :=
  match cs with
  | c1 :: c2 :: c3 :: rest =>
    if c1.isDigit && c2.isDigit && hMark c3 then
      some (dval c1 * 10 + dval c2, minutesOpt rest)
    else if c1.isDigit && hMark c2 then
      some (dval c1, minutesOpt (c3 :: rest))
    else none
  | [c1, c2] => if c1.isDigit && hMark c2 then some (dval c1, none) else none
  | _ => none

/-- Leftmost match of `/(\d{1,2})h(\d{2})?/i` (JS `String.prototype.match`
without the `g` flag): try each start position left to right. -/
def scanTimeOpt : List Char → Option (Nat × Option Nat)
  | [] => none
  | c :: rest =>
    match timeMatchAt (c :: rest) with
    | some r => some r
    | none => scanTimeOpt rest

/-- Embedding of `parseTimeToMinutes` from `src/app.js` lines 40–47 (also the copy at
`src/trailer-utils.js` lines 570–577): minutes are optional and default to
0; an empty or non-matching input yields 0. -/
def appParseTimeToMinutes (s : String) : Nat :=
  match scanTimeOpt s.data with
  | none => 0
  | some (h, m) => h * 60 + m.getD 0

/-- Attempt of the regex `/(\d{1,2})h(\d{2})/i` (minutes REQUIRED) anchored
at the head of `cs`, with JS backtracking over the hour width. -/
def timeMatchReqAt (cs : List Char) : Option (Nat × Nat) :=
  match cs with
  | c1 :: c2 :: c3 :: m1 :: m2 :: _ =>
    if c1.isDigit && c2.isDigit && hMark c3 && m1.isDigit && m2.isDigit then
      some (dval c1 * 10 + dval c2, dval m1 * 10 + dval m2)
    else if c1.isDigit && hMark c2 && c3.isDigit && m1.isDigit then
      some (dval c1, dval c3 * 10 + dval m1)
    else none
  | [c1, c2, c3, m1] =>
    if c1.isDigit && hMark c2 && c3.isDigit && m1.isDigit then
      some (dval c1, dval c3 * 10 + dval m1)
    else none
  | _ => none

/-- Leftmost match of `/(\d{1,2})h(\d{2})/i`. -/
def scanTimeReq : List Char → Option (Nat × Nat)
  | [] => none
  | c :: rest =>
    match timeMatchReqAt (c :: rest) with
    | some r => some r
    | none => scanTimeReq rest

/-- Embedding of `parseTimeToMinutes` from the second script in `src/trailer-utils.js`
(lines 41–47): the minutes group is not optional, so a time written `Hh`
does not match and the function returns 0. -/
def trailerParseTimeToMinutes (s : String) : Nat :=
  match scanTimeReq s.data with
  | none => 0
  | some (h, m) => h * 60 + m

/-- ASCII digit character for `n < 10`. -/
def digitChar (n : Nat) : Char := Char.ofNat (48 + n)

/-- Decimal rendering of an hour `0 ≤ h ≤ 23` without padding. -/
def renderHour (h : Nat) : List Char :=
  if h < 10 then [digitChar h] else [digitChar (h / 10), digitChar (h % 10)]

/-- Canonical time string: `Hh` when the minutes are zero, else `HhMM`
(two-digit minutes), as produced by the extraction prompts and consumed by
the site. -/
def renderTime (h m : Nat) : String :=
  ⟨renderHour h ++ 'h' :: (if m = 0 then [] else [digitChar (m / 10), digitChar (m % 10)])⟩

/-- Re-render a minute count in canonical form. -/
def renderOfMinutes (q : Nat) : String := renderTime (q / 60) (q % 60)

/-! ## Title matching (`findMovie`, movie-detail page) -/

/-- A movie record as used by `findMovie`; only `movie_title` is read. -/
structure Movie where
  movie_title : String
deriving DecidableEq

/-- List-of-characters version of JS `String.prototype.startsWith`. -/
def startsWithL : List Char → List Char → Bool
  | _, [] => true
  | [], _ :: _ => false
  | a :: as, b :: bs => a == b && startsWithL as bs

/-- List-of-characters version of JS `String.prototype.includes`
(substring containment). -/
def containsSub : List Char → List Char → Bool
  | [], small => small.isEmpty
  | big@(_ :: rest), small => startsWithL big small || containsSub rest small

/-- Embedding of `findMovie` from `src/unnamed/part_002` lines 44–50: an empty normalized
query returns `null`; otherwise exact normalized-title equality is tried
first, then two-way substring containment, then `null`. -/
def findMovie (movies : List Movie) (title : String) : Option Movie :=
  let target := normalizePage title
  if target.data.isEmpty then none
  else
    match movies.find? (fun m => normalizePage m.movie_title == target) with
    | some m => some m
    | none =>
      movies.find? (fun m =>
        containsSub (normalizePage m.movie_title).data target.data ||
          containsSub target.data (normalizePage m.movie_title).data)

/-- Two-way substring containment between a movie's normalized title and a
normalized query, as in the fallback branch of `findMovie`. -/
def TwoWayContain (m : Movie) (title : String) : Prop :=
  containsSub (normalizePage m.movie_title).data (normalizePage title).data = true ∨
    containsSub (normalizePage title).data (normalizePage m.movie_title).data = true

/-! ## Trailer URL validation (`src/trailer-utils.js` lines 1–19) -/

/-- The parts of a parsed WHATWG URL that `getValidatedTrailerUrl` reads. -/
structure UrlParts where
  protocol : String
  hostname : String
  pathname : String
deriving DecidableEq

/-- Embedding of `getValidatedTrailerUrl`: the `new URL(rawUrl)` constructor (which may
throw, modelled by an arbitrary total `parseUrl : String → Option UrlParts`
where `none` stands for the caught exception) followed by the literal
checks of the source: protocol must be `https:`, hostname in
`{www.youtube.com, youtu.be}`, `www.youtube.com` requires pathname
`/watch`, and `youtu.be` requires a non-empty pathname other than `/`. -/
def getValidatedTrailerUrl (parseUrl : String → Option UrlParts) (rawUrl : String) :
    Option UrlParts :=
  if rawUrl = "" then none
  else
    match parseUrl rawUrl with
    | none => none
    | some url =>
      if url.protocol != "https:" || !(url.hostname == "www.youtube.com" || url.hostname == "youtu.be") then
        none
      else if url.hostname == "www.youtube.com" && url.pathname != "/watch" then
        none
      else if url.hostname == "youtu.be" && (url.pathname == "" || url.pathname == "/") then
        none
      else some url

/-! ## Schedule filtering and sorting (`buildFilteredList`, `src/app.js`) -/

/-- Executable lexicographic comparison of character lists, modelling the
JS string relational operator `<` (code-unit order; identical to code-point
order on the BMP strings the site handles, such as ISO dates). -/
def lexLtCh : List Char → List Char → Bool
  | [], [] => false
  | [], _ :: _ => true
  | _ :: _, [] => false
  | a :: as, b :: bs =>
    if a.toNat < b.toNat then true
    else if b.toNat < a.toNat then false
    else lexLtCh as bs

/-- JS string `<` (and the strict part of `localeCompare`, which on
same-format ISO date strings coincides with code-point order). -/
def strLt (a b : String) : Bool := lexLtCh a.data b.data

/-- String uppercase via `jsUpper`. -/
def upperStr (s : String) : String := ⟨s.data.map jsUpper⟩

/-- String lowercase via `jsLower`. -/
def lowerStr (s : String) : String := ⟨s.data.map jsLower⟩

/-- One record of the `records` array of `src/app.js` (lines 193–200) as
read by `buildFilteredList`: `dateISO`/`timeRaw` copy the JSON fields and
`timeMinutes = parseTimeToMinutes(time)`. -/
structure AppRecord where
  cinema : String
  movie_title : String
  dateISO : String
  timeMinutes : Nat
  version : String
  original_language : String
deriving DecidableEq

/-- The JSON screening item feeding the `records` mapping. -/
structure RawItem where
  cinema : String
  movie_title : String
  date : String
  time : String
  version : String
  original_language : String
deriving DecidableEq

/-- The `records = program.map(...)` step of `src/app.js`: derives
`dateISO` and `timeMinutes` from the raw item. -/
def mkRecord (item : RawItem) : AppRecord :=
  { cinema := item.cinema
    movie_title := item.movie_title
    dateISO := item.date
    timeMinutes := appParseTimeToMinutes item.time
    version := item.version
    original_language := item.original_language }

/-- The slice of the global `state` of `src/app.js` that
`buildFilteredList` reads. JS `Set`s are modelled as lists; `allMoviesLen`
is `allMovies.length`. -/
structure FilterState where
  showAllDates : Bool
  movieFilters : List String
  allMoviesLen : Nat
  vf : Bool
  vost : Bool
  vof : Bool
  hiddenMovies : List String
  cinemaFilters : List String

/-- The filter predicate of `buildFilteredList` (`src/app.js` lines
543–571), with each early `return false` mirrored in order. -/
def screeningPasses (st : FilterState) (todayISO : String) (item : AppRecord) : Bool :=
  if !st.showAllDates && strLt item.dateISO todayISO then false
  else if decide (st.movieFilters.length ≠ 0) && decide (st.movieFilters.length < st.allMoviesLen)
      && !(st.movieFilters.contains item.movie_title) then false
  else
    let version := upperStr item.version
    let originalLanguage := lowerStr item.original_language
    let isVOF := version == "" && originalLanguage == "fr"
    if version == "VOST" && !st.vost then false
    else if version == "VF" && !st.vf then false
    else if isVOF && !st.vof then false
    else if st.hiddenMovies.contains item.movie_title then false
    else if decide (st.cinemaFilters.length ≠ 0) && !(st.cinemaFilters.contains item.cinema) then false
    else true

/-- The sort order of `buildFilteredList`: date ascending (string order),
ties broken by `timeMinutes` ascending. -/
def screeningLe (a b : AppRecord) : Prop :=
  strLt a.dateISO b.dateISO = true ∨ (a.dateISO = b.dateISO ∧ a.timeMinutes ≤ b.timeMinutes)

instance : DecidableRel screeningLe := fun a b => by
  unfold screeningLe
  infer_instance

/-- Embedding of `buildFilteredList` (`src/app.js` lines 540–576): filter `records`,
then sort by the comparator `(a, b) => a.dateISO.localeCompare(b.dateISO)
|| a.timeMinutes - b.timeMinutes`. `Array.prototype.sort` with this
consistent comparator is modelled as a stable sort by the induced total
preorder `screeningLe`. -/
def buildFilteredList (st : FilterState) (todayISO : String) (records : List AppRecord) :
    List AppRecord :=
  List.insertionSort screeningLe (records.filter (screeningPasses st todayISO))

/-! ## Spec-modelled extraction pipeline

The extraction itself (per-page screening extraction, calendar context,
row parsing, cross-page merge) exists in the repository only as the LLM
prompts of `src/unnamed/part_000`; the definitions below are modelled from
the specification (§§4.1–4.3) and the prompts' wording. -/

/-- Modelled from the spec: a Screening record (§3) — cinema, movie title,
date, canonical time and audio version. Dates are absolute day indices
(the calendar rendering to ISO strings is irrelevant to dedup and merge);
the version is the string written into the JSON (`"VF"` / `"VOST"`). -/
structure Screening where
  cinema : String
  movie_title : String
  date : Nat
  time : String
  version : String
deriving DecidableEq

/-- The full five-field uniqueness key of a Screening (§3: "Uniqueness key
= the full tuple"). -/
def screeningKey (s : Screening) : String × String × Nat × String × String :=
  (s.cinema, s.movie_title, s.date, s.time, s.version)

/-- Modelled from the spec: deduplication over the full tuple — walk the
list keeping the first record with each key, tracking the set of keys
already emitted. -/
def dedupAux (seen : List (String × String × Nat × String × String)) :
    List Screening → List Screening
  | [] => []
  | s :: rest =>
    if screeningKey s ∈ seen then dedupAux seen rest
    else s :: dedupAux (screeningKey s :: seen) rest

/-- Modelled from the spec: deduplication over the full tuple (§4.3 and the
merge prompt of `src/unnamed/part_000`): keep the first record with each
key, drop later duplicates. -/
def dedupScreenings (l : List Screening) : List Screening :=
  dedupAux [] l

/-- Modelled from the spec: the cross-page merge (§4.3) — concatenate all
pages' Screening sets in page order, then deduplicate over the full
tuple. -/
def crossPageMerge (pages : List (List Screening)) : List Screening :=
  dedupScreenings pages.flatten

/-- Modelled from the spec: §4.2 — a time-row token, already classified: a
time token with its numeric hour/minutes, a version marker (`VOST`), or
any other token. -/
inductive RowTok
  | timeTok (h m : Nat)
  | vostMarker
  | plain
deriving DecidableEq

/-- Modelled from the spec: a `VOST` marker occurs within the lookaround
window of width `w` around position `i` of the token list. -/
def markerNearby (w : Nat) (toks : List RowTok) (i : Nat) : Bool :=
  (List.range toks.length).any fun j =>
    decide (i ≤ j + w) && decide (j ≤ i + w) && decide (toks.getD j RowTok.plain = RowTok.vostMarker)

/-- Modelled from the spec: §4.2 — the (time, version) pair produced by the
time token at position `i`, if any: a malformed hour/minute
(`hour > 23`/`minute > 59`) is dropped; the version is `VOST` when a
marker lies in the lookaround window, else `VF`. -/
def pairAt (w : Nat) (toks : List RowTok) (i : Nat) : Option (String × String) :=
  match toks.getD i RowTok.plain with
  | RowTok.timeTok h m =>
    if h ≤ 23 && m ≤ 59 then
      some (renderTime h m, if markerNearby w toks i then "VOST" else "VF")
    else none
  | _ => none

/-- Modelled from the spec: `parseRow` (§4.2) — the sequence of normalized
(time, version) pairs of a row, one per well-formed time token. -/
def parseRow (w : Nat) (toks : List RowTok) : List (String × String) :=
  (List.range toks.length).filterMap (pairAt w toks)

/-- Modelled from the spec: §4.3 — the states of the Screening Extractor. -/
inductive Phase
  | awaitingCinema
  | awaitingDateRange
  | awaitingMovie
  | awaitingTimes
deriving DecidableEq

/-- Modelled from the spec: a classified page line as consumed by the
Extractor state machine (§4.3): a cinema header, a date-range header
(already resolved to the anchor's Wednesday day index by the Calendar
Context, §4.1), a movie header (title already cleaned), a time row (its
weekday reference as an offset into the Wed→Tue anchor span, and its
(time, version) pairs from the Row Parser), or noise. -/
inductive Line
  | cinemaHeader (name : String)
  | dateRange (anchorStart : Nat)
  | movieHeader (title : String)
  | timeRow (day : Fin 7) (pairs : List (String × String))
  | noise
deriving DecidableEq

/-- Modelled from the spec: the Extractor's per-page transient state
(§3 ParsingContext, §4.3): current phase, active cinema, anchor start and
active movie. -/
structure ExtState where
  phase : Phase
  cinema : Option String
  anchor : Option Nat
  movie : Option String
deriving DecidableEq

/-- Modelled from the spec: the initial state of a page
(`AwaitingCinemaHeader`, no context established). -/
def initExtState : ExtState :=
  { phase := Phase.awaitingCinema, cinema := none, anchor := none, movie := none }

/-- Modelled from the spec: one transition of the Extractor state machine
(§4.3). A cinema header always starts a new venue block; a date-range
header feeds the Calendar Context once a cinema is active; a movie header
is accepted while awaiting a movie or further time rows; a time row emits
one Screening per (time, version) pair, dating each by the anchor plus the
row's weekday offset, and is skipped (DateResolutionError, §4.1/§7) when
no full context is established. -/
def step (st : ExtState) : Line → ExtState × List Screening
  | Line.cinemaHeader name =>
    ({ st with phase := Phase.awaitingDateRange, cinema := some name }, [])
  | Line.dateRange a =>
    if st.phase = Phase.awaitingCinema then (st, [])
    else ({ st with phase := Phase.awaitingMovie, anchor := some a }, [])
  | Line.movieHeader t =>
    if st.phase = Phase.awaitingMovie ∨ st.phase = Phase.awaitingTimes then
      ({ st with phase := Phase.awaitingTimes, movie := some t }, [])
    else (st, [])
  | Line.timeRow d pairs =>
    match st.phase, st.cinema, st.anchor, st.movie with
    | Phase.awaitingTimes, some c, some a, some m =>
      (st, pairs.map fun pv => { cinema := c, movie_title := m, date := a + d.val,
                                 time := pv.1, version := pv.2 })
    | _, _, _, _ => (st, [])
  | Line.noise => (st, [])

/-- Modelled from the spec: run the Extractor over a page's ordered lines
from a given state, collecting emissions in order. -/
def runFrom (st : ExtState) : List Line → ExtState × List Screening
  | [] => (st, [])
  | l :: ls =>
    let s1 := step st l
    let s2 := runFrom s1.1 ls
    (s2.1, s1.2 ++ s2.2)

/-- Modelled from the spec: the raw emissions of one page, started in the
initial state (the ParsingContext is reset at the start of each page). -/
def extractPage (ls : List Line) : List Screening :=
  (runFrom initExtState ls).2

/-- Modelled from the spec: a page's Screening set after the in-page
deduplication of §4.3. -/
def pageScreenings (ls : List Line) : List Screening :=
  dedupScreenings (extractPage ls)

/-- Modelled from the spec: the two-page cross-page merge — concatenate the
per-page sets in the given order, then deduplicate over the full tuple. -/
def mergePages (p1 p2 : List Line) : List Screening :=
  dedupScreenings (pageScreenings p1 ++ pageScreenings p2)

/-! ## Spec-modelled date-range year resolution (§4.1) -/

/-- A printed calendar date (year, month 1–12, day). -/
structure PDate where
  year : Nat
  month : Nat
  day : Nat
deriving DecidableEq

/-- Modelled from the spec: §4.1 — resolving the bounds of a
`"Du <day> <month> au <day> <month>"` range header. If no year is printed,
2025 is assumed; if the two bounds cross a December→January boundary, the
second bound's year is the first bound's year plus one, else both years
agree. -/
def resolveRangeHeader (d1 m1 d2 m2 : Nat) (printedYear : Option Nat) : PDate × PDate :=
  let y1 := printedYear.getD 2025
  let y2 := if m1 = 12 && m2 = 1 then y1 + 1 else y1
  (⟨y1, m1, d1⟩, ⟨y2, m2, d2⟩)
/-! # Theorems -/

theorem replaceRunsAux_mem (p : Char → Bool) (l : List Char) :
    ∀ (b : Bool), ∀ c ∈ replaceRunsAux p b l, c = ' ' ∨ (p c = false ∧ c ∈ l) := by
  induction l with
  | nil => intro b c hc; simp [replaceRunsAux] at hc
  | cons a rest ih =>
    intro b c hc
    by_cases hpa : p a = true
    · cases b with
      | true =>
        simp only [replaceRunsAux, hpa, if_pos] at hc
        rcases ih true c hc with h | ⟨h1, h2⟩
        · exact Or.inl h
        · exact Or.inr ⟨h1, List.mem_cons_of_mem _ h2⟩
      | false =>
        simp only [replaceRunsAux, hpa, if_pos] at hc
        rcases List.mem_cons.mp hc with h | h
        · exact Or.inl h
        · rcases ih true c h with h' | ⟨h1, h2⟩
          · exact Or.inl h'
          · exact Or.inr ⟨h1, List.mem_cons_of_mem _ h2⟩
    · have hpa' : p a = false := by simpa using hpa
      simp only [replaceRunsAux, hpa', Bool.false_eq_true, if_false] at hc
      rcases List.mem_cons.mp hc with h | h
      · subst h; exact Or.inr ⟨hpa', List.mem_cons_self _ _⟩
      · rcases ih false c h with h' | ⟨h1, h2⟩
        · exact Or.inl h'
        · exact Or.inr ⟨h1, List.mem_cons_of_mem _ h2⟩

theorem replaceRunsAux_head_true (p : Char → Bool) (l : List Char) :
    ∀ c, (replaceRunsAux p true l).head? = some c → p c = false := by
  induction l with
  | nil => intro c hc; simp [replaceRunsAux] at hc
  | cons a rest ih =>
    intro c hc
    by_cases hpa : p a = true
    · simp only [replaceRunsAux, hpa, if_pos] at hc
      exact ih c hc
    · have hpa' : p a = false := by simpa using hpa
      simp only [replaceRunsAux, hpa', Bool.false_eq_true, if_false, List.head?_cons,
        Option.some.injEq] at hc
      rw [← hc]; exact hpa'

theorem replaceRunsAux_chain (p : Char → Bool) (hsp : p ' ' = true) (l : List Char) :
    ∀ b, (replaceRunsAux p b l).Chain' (fun a c => ¬(a = ' ' ∧ c = ' ')) := by
  induction l with
  | nil => intro b; simp [replaceRunsAux]
  | cons a rest ih =>
    intro b
    by_cases hpa : p a = true
    · cases b with
      | true => simpa only [replaceRunsAux, hpa, if_pos] using ih true
      | false =>
        simp only [replaceRunsAux, hpa, if_pos]
        refine List.chain'_cons'.mpr ⟨?_, ih true⟩
        intro y hy hcontra
        have hpy := replaceRunsAux_head_true p rest y hy
        rw [hcontra.2] at hpy
        rw [hsp] at hpy
        exact Bool.true_eq_false.mp hpy
    · have hpa' : p a = false := by simpa using hpa
      simp only [replaceRunsAux, hpa', Bool.false_eq_true, if_false]
      refine List.chain'_cons'.mpr ⟨?_, ih false⟩
      intro y hy hcontra
      rw [hcontra.1] at hpa'
      rw [hsp] at hpa'
      exact Bool.true_eq_false.mp hpa'

theorem replaceRunsAux_id (p : Char → Bool) (l : List Char)
    (hiff : ∀ c ∈ l, (p c = true ↔ c = ' '))
    (hch : l.Chain' (fun a c => ¬(a = ' ' ∧ c = ' '))) :
    replaceRunsAux p false l = l ∧ (l.head? ≠ some ' ' → replaceRunsAux p true l = l) := by
  induction l with
  | nil => exact ⟨rfl, fun _ => rfl⟩
  | cons a rest ih =>
    have hiff' : ∀ c ∈ rest, (p c = true ↔ c = ' ') :=
      fun c hc => hiff c (List.mem_cons_of_mem _ hc)
    have hhd := (List.chain'_cons'.mp hch).1
    have hch' := (List.chain'_cons'.mp hch).2
    obtain ⟨ihF, ihT⟩ := ih hiff' hch'
    by_cases hpa : p a = true
    · have ha : a = ' ' := (hiff a (List.mem_cons_self _ _)).mp hpa
      subst ha
      have hrest_hd : rest.head? ≠ some ' ' := by
        intro hsome
        exact hhd ' ' hsome ⟨rfl, rfl⟩
      refine ⟨?_, ?_⟩
      · simp only [replaceRunsAux, hpa, if_pos, Bool.false_eq_true, if_false]
        rw [ihT hrest_hd]
      · intro hhead
        simp at hhead
    · have hpa' : p a = false := by simpa using hpa
      have ha : a ≠ ' ' := fun h => by
        have := (hiff a (List.mem_cons_self _ _)).mpr h
        rw [this] at hpa'
        exact Bool.true_eq_false.mp hpa'
      refine ⟨?_, fun _ => ?_⟩
      · simp only [replaceRunsAux, hpa', Bool.false_eq_true, if_false]
        rw [ihF]
      · simp only [replaceRunsAux, hpa', Bool.false_eq_true, if_false]
        rw [ihF]

theorem head?_dropWhile_not (p : Char → Bool) (l : List Char) :
    ∀ c, (List.dropWhile p l).head? = some c → p c = false := by
  induction l with
  | nil => intro c hc; simp at hc
  | cons a t ih =>
    intro c hc
    by_cases hpa : p a = true
    · rw [List.dropWhile_cons, if_pos hpa] at hc
      exact ih c hc
    · have hpa' : p a = false := by simpa using hpa
      rw [List.dropWhile_cons, if_neg hpa] at hc
      simp only [List.head?_cons, Option.some.injEq] at hc
      rw [← hc]; exact hpa'

theorem mem_trimEnds (l : List Char) : ∀ c ∈ trimEnds l, c ∈ l := by
  intro c hc
  unfold trimEnds at hc
  have h1 := (List.dropWhile_sublist (l := (List.dropWhile isJsSpace l.reverse).reverse) isJsSpace).mem hc
  rw [List.mem_reverse] at h1
  have h2 := (List.dropWhile_sublist (l := l.reverse) isJsSpace).mem h1
  rwa [List.mem_reverse] at h2

theorem chain_spaces_reverse {l : List Char}
    (h : l.Chain' (fun a c => ¬(a = ' ' ∧ c = ' '))) :
    l.reverse.Chain' (fun a c => ¬(a = ' ' ∧ c = ' ')) := by
  rw [List.chain'_reverse]
  exact List.Chain'.imp (fun a c hac h2 => hac ⟨h2.2, h2.1⟩) h

theorem chain_trimEnds (l : List Char)
    (h : l.Chain' (fun a c => ¬(a = ' ' ∧ c = ' '))) :
    (trimEnds l).Chain' (fun a c => ¬(a = ' ' ∧ c = ' ')) := by
  unfold trimEnds
  exact ((chain_spaces_reverse ((chain_spaces_reverse h).suffix
    (List.dropWhile_suffix _))).suffix (List.dropWhile_suffix _))

theorem head_trimEnds (l : List Char) : (trimEnds l).head? ≠ some ' ' := by
  intro hc
  unfold trimEnds at hc
  have h := head?_dropWhile_not isJsSpace _ ' ' hc
  rw [show isJsSpace ' ' = true from rfl] at h
  exact Bool.true_eq_false.mp h

theorem getLast_trimEnds (l : List Char) : (trimEnds l).getLast? ≠ some ' ' := by
  intro hc
  unfold trimEnds at hc
  obtain ⟨t, ht⟩ := List.dropWhile_suffix (l := (List.dropWhile isJsSpace l.reverse).reverse) isJsSpace
  have h1 : ((List.dropWhile isJsSpace l.reverse).reverse).getLast? = some ' ' := by
    rw [← ht, List.getLast?_append, hc]
    rfl
  have h2 : (List.dropWhile isJsSpace l.reverse).head? = some ' ' := by
    have hrr := List.head?_reverse (List.dropWhile isJsSpace l.reverse).reverse
    rw [List.reverse_reverse] at hrr
    rw [hrr]
    exact h1
  have h := head?_dropWhile_not isJsSpace l.reverse ' ' h2
  rw [show isJsSpace ' ' = true from rfl] at h
  exact Bool.true_eq_false.mp h

theorem normShape_normalizeListWith (strip : Char → Bool) (l : List Char) :
    NormShape (normalizeListWith strip l) := by
  unfold NormShape normalizeListWith replaceRuns
  refine ⟨?_, ?_, ?_, ?_⟩
  · intro c hc
    have hc' := mem_trimEnds _ c hc
    rcases replaceRunsAux_mem isJsSpace _ false c hc' with h | ⟨_, h2⟩
    · exact Or.inr h
    · rcases replaceRunsAux_mem (fun c => !isLowerAlnum c) _ false c h2 with h | ⟨h3, _⟩
      · exact Or.inr h
      · left; simpa using h3
  · exact chain_trimEnds _ (replaceRunsAux_chain isJsSpace (by decide) _ false)
  · exact head_trimEnds _
  · exact getLast_trimEnds _

theorem isLowerAlnum_bounds {c : Char} (h : isLowerAlnum c = true) :
    (97 ≤ c.toNat ∧ c.toNat ≤ 122) ∨ (48 ≤ c.toNat ∧ c.toNat ≤ 57) := by
  simpa [isLowerAlnum, Bool.or_eq_true, Bool.and_eq_true, decide_eq_true_eq] using h

theorem shape_char_toNat_le {c : Char} (h : isLowerAlnum c = true ∨ c = ' ') :
    c.toNat ≤ 122 := by
  rcases h with h | h
  · rcases isLowerAlnum_bounds h with ⟨_, h2⟩ | ⟨_, h2⟩ <;> omega
  · subst h; decide

theorem jsLower_fixed {c : Char} (h : isLowerAlnum c = true ∨ c = ' ') :
    jsLower c = c := by
  rcases h with h | h
  · have hb := isLowerAlnum_bounds h
    unfold jsLower
    rw [if_neg (by omega), if_neg (by omega), if_neg (by omega)]
  · subst h; decide

theorem nfdChar_fixed {c : Char} (h : c.toNat < 0xE0) : nfdChar c = [c] := by
  unfold nfdChar; rw [if_pos h]

theorem flatMap_nfdChar_fixed (m : List Char) (hm : ∀ c ∈ m, c.toNat < 0xE0) :
    m.flatMap nfdChar = m := by
  induction m with
  | nil => rfl
  | cons a t ih =>
    rw [List.flatMap_cons, nfdChar_fixed (hm a (List.mem_cons_self _ _)),
      ih (fun c hc => hm c (List.mem_cons_of_mem _ hc)), List.singleton_append]

theorem dropWhile_space_id (l : List Char) (hc : ∀ c ∈ l, isJsSpace c = true → c = ' ')
    (hh : l.head? ≠ some ' ') : List.dropWhile isJsSpace l = l := by
  cases l with
  | nil => rfl
  | cons a t =>
    have ha : isJsSpace a = false := by
      by_contra h
      have h' : isJsSpace a = true := by simpa using h
      have := hc a (List.mem_cons_self _ _) h'
      exact hh (by rw [this]; rfl)
    rw [List.dropWhile_cons, if_neg (by simp [ha])]

theorem space_iff_of_shape {c : Char} (h : isLowerAlnum c = true ∨ c = ' ') :
    isJsSpace c = true ↔ c = ' ' := by
  constructor
  · intro hs
    rcases h with h | h
    · exfalso
      rcases isLowerAlnum_bounds h with ⟨h1, h2⟩ | ⟨h1, h2⟩ <;>
        · simp only [isJsSpace, Bool.or_eq_true, Bool.and_eq_true, decide_eq_true_eq] at hs
          omega
    · exact h
  · intro hs; subst hs; decide

theorem nonalnum_iff_of_shape {c : Char} (h : isLowerAlnum c = true ∨ c = ' ') :
    (!isLowerAlnum c) = true ↔ c = ' ' := by
  constructor
  · intro hs
    rcases h with h | h
    · rw [h] at hs; simp at hs
    · exact h
  · intro hs; subst hs; decide

theorem trimEnds_id_of_shape (l : List Char)
    (hchar : ∀ c ∈ l, isLowerAlnum c = true ∨ c = ' ')
    (hhead : l.head? ≠ some ' ') (hlast : l.getLast? ≠ some ' ') :
    trimEnds l = l := by
  unfold trimEnds
  have hrev : List.dropWhile isJsSpace l.reverse = l.reverse := by
    apply dropWhile_space_id
    · intro c hc hs
      exact (space_iff_of_shape (hchar c (List.mem_reverse.mp hc))).mp hs
    · rw [List.head?_reverse]; exact hlast
  rw [hrev, List.reverse_reverse]
  apply dropWhile_space_id
  · intro c hc hs
    exact (space_iff_of_shape (hchar c hc)).mp hs
  · exact hhead

theorem normalizeListWith_id_of_shape (l : List Char) (h : NormShape l) :
    normalizeListWith isCombining l = l := by
  obtain ⟨hchar, hchain, hhead, hlast⟩ := h
  unfold normalizeListWith replaceRuns
  have h1 : l.map jsLower = l := by
    rw [List.map_congr_left (fun c hc => jsLower_fixed (hchar c hc))]
    exact List.map_id l
  rw [h1]
  rw [flatMap_nfdChar_fixed l (fun c hc => by have := shape_char_toNat_le (hchar c hc); omega)]
  have h2 : l.filter (fun c => !isCombining c) = l := by
    apply List.filter_eq_self.mpr
    intro c hc
    have := shape_char_toNat_le (hchar c hc)
    simp only [isCombining, Bool.not_eq_eq_eq_not, Bool.not_true, Bool.and_eq_false_iff,
      decide_eq_false_iff_not]
    omega
  rw [h2]
  rw [(replaceRunsAux_id _ l (fun c hc => nonalnum_iff_of_shape (hchar c hc)) hchain).1]
  rw [(replaceRunsAux_id _ l (fun c hc => space_iff_of_shape (hchar c hc)) hchain).1]
  exact trimEnds_id_of_shape l hchar hhead hlast

/-- Claim C8: the `normalize` of `src/app.js` is idempotent and its output
consists only of lowercase ASCII letters and digits and single separating
spaces, with no leading or trailing space; hence lookups keyed by it (the
`moviesByTitle` map) are stable under re-normalization. -/
theorem normalizeApp_idempotent_shape (s : String) :
    normalizeApp (normalizeApp s) = normalizeApp s ∧
      (∀ c ∈ (normalizeApp s).data, isLowerAlnum c = true ∨ c = ' ') ∧
      (normalizeApp s).data.Chain' (fun a b => ¬(a = ' ' ∧ b = ' ')) ∧
      (normalizeApp s).data.head? ≠ some ' ' ∧
      (normalizeApp s).data.getLast? ≠ some ' ' := by
  have hshape : NormShape (normalizeListWith isCombining s.data) :=
    normShape_normalizeListWith _ _
  refine ⟨?_, hshape.1, hshape.2.1, hshape.2.2.1, hshape.2.2.2⟩
  exact congrArg String.mk (normalizeListWith_id_of_shape _ hshape)

/-- Claim C3 (counterexample): the three `normalize` functions are not one
shared function: on the input `"a^b"` the `src/app.js` version (which
strips only the combining range) keeps a separating space for `^`, while
the `part_002`/`trailer-utils` version (which strips `\p{Diacritic}`,
containing the ASCII `^`) deletes it. -/
theorem normalize_not_shared_counterexample :
    normalizeApp "a^b" = "a b" ∧ normalizePage "a^b" = "ab" ∧
      normalizeApp "a^b" ≠ normalizePage "a^b" :=
  ⟨by decide, by decide, by decide⟩

/-- Claim C3 (amended): the movie-detail page and the alternate schedule
script share one normalize function, and the schedule app's version agrees
with it on every string none of whose lowercased NFD characters lies in
`\p{Diacritic} \ [̀-ͯ]` (in particular on all plain French titles). -/
theorem normalize_shared_amended :
    (∀ s : String, normalizePage s = normalizeTrailer s) ∧
      ∀ s : String,
        (∀ c ∈ (s.data.map jsLower).flatMap nfdChar, jsDiacritic c = isCombining c) →
        normalizeApp s = normalizePage s := by
  constructor
  · intro s; rfl
  · intro s hs
    unfold normalizeApp normalizePage normalizeListWith
    have hfil : ((s.data.map jsLower).flatMap nfdChar).filter (fun c => !isCombining c) =
        ((s.data.map jsLower).flatMap nfdChar).filter (fun c => !jsDiacritic c) :=
      List.filter_congr (fun c hc => by rw [hs c hc])
    rw [hfil]

theorem normalize_shared_witness :
    normalizePage "Déjà Vu" = normalizeTrailer "Déjà Vu" ∧
      normalizeApp "Déjà Vu" = normalizePage "Déjà Vu" :=
  ⟨normalize_shared_amended.1 "Déjà Vu",
    normalize_shared_amended.2 "Déjà Vu" (by decide)⟩

/-- Claim C4 (counterexample): for the queried title `"."` (whose
normalization is empty) and a movie list containing a movie whose
normalized title is also empty, an exact normalized match exists but
`findMovie` returns `null` because of its empty-target guard. -/
theorem findMovie_counterexample :
    (Movie.mk ".") ∈ [Movie.mk "."] ∧
      normalizePage (Movie.mk ".").movie_title = normalizePage "." ∧
      findMovie [Movie.mk "."] "." = none :=
  ⟨by decide, rfl, by decide⟩

/-- Claim C4 (amended): provided the normalized query is non-empty,
`findMovie` returns an exact normalized match when one exists; otherwise it
returns a movie related by two-way substring containment when one exists,
and `null` when none does. -/
theorem findMovie_amended (movies : List Movie) (title : String)
    (hne : normalizePage title ≠ "") :
    ((∃ m ∈ movies, normalizePage m.movie_title = normalizePage title) →
        ∃ m, findMovie movies title = some m ∧ m ∈ movies ∧
          normalizePage m.movie_title = normalizePage title) ∧
      ((∀ m ∈ movies, normalizePage m.movie_title ≠ normalizePage title) →
        ((∃ m ∈ movies, TwoWayContain m title) →
            ∃ m, findMovie movies title = some m ∧ m ∈ movies ∧ TwoWayContain m title) ∧
          ((∀ m ∈ movies, ¬TwoWayContain m title) → findMovie movies title = none)) := by
  have hne' : ¬((normalizePage title).data.isEmpty = true) := by
    intro h
    apply hne
    apply String.ext
    simpa using h
  unfold findMovie
  simp only [if_neg hne']
  cases hfind : movies.find? (fun m => normalizePage m.movie_title == normalizePage title) with
  | some m =>
    have hmem := List.mem_of_find?_eq_some hfind
    have heq : normalizePage m.movie_title = normalizePage title := by
      have := List.find?_some hfind
      simpa using this
    constructor
    · intro _
      exact ⟨m, rfl, hmem, heq⟩
    · intro hall
      exact absurd heq (hall m hmem)
  | none =>
    have hnone := List.find?_eq_none.mp hfind
    constructor
    · rintro ⟨m, hm, heq⟩
      exact absurd (by simpa using heq) (hnone m hm)
    · intro _
      constructor
      · rintro ⟨m, hm, htw⟩
        cases hfind2 : movies.find? (fun m =>
            containsSub (normalizePage m.movie_title).data (normalizePage title).data ||
              containsSub (normalizePage title).data (normalizePage m.movie_title).data) with
        | some m' =>
          have hmem' := List.mem_of_find?_eq_some hfind2
          have htw' : TwoWayContain m' title := by
            have := List.find?_some hfind2
            simpa [TwoWayContain] using this
          exact ⟨m', rfl, hmem', htw'⟩
        | none =>
          exfalso
          have := List.find?_eq_none.mp hfind2 m hm
          rcases htw with h | h <;> simp [h] at this
      · intro hnone2
        have : movies.find? (fun m =>
            containsSub (normalizePage m.movie_title).data (normalizePage title).data ||
              containsSub (normalizePage title).data (normalizePage m.movie_title).data) = none := by
          apply List.find?_eq_none.mpr
          intro m hm hpred
          apply hnone2 m hm
          simpa [TwoWayContain] using hpred
        rw [this]

theorem findMovie_witness :
    normalizePage "Le FILM" ≠ "" ∧
      ∃ m, findMovie [Movie.mk "Le Film"] "Le FILM" = some m ∧
        m ∈ [Movie.mk "Le Film"] ∧
        normalizePage m.movie_title = normalizePage "Le FILM" :=
  ⟨by decide, (findMovie_amended [Movie.mk "Le Film"] "Le FILM" (by decide)).1
    ⟨Movie.mk "Le Film", by decide, by decide⟩⟩

set_option maxRecDepth 4000 in
theorem timeRoundTrip_bounded : ∀ hf : Fin 24, ∀ mf : Fin 60,
    appParseTimeToMinutes (renderTime hf.val mf.val) = 60 * hf.val + mf.val ∧
      renderOfMinutes (60 * hf.val + mf.val) = renderTime hf.val mf.val ∧
      (1 ≤ mf.val → trailerParseTimeToMinutes (renderTime hf.val mf.val) = 60 * hf.val + mf.val) := by
  decide

/-- Claim C2 (counterexample): the minutes-required `parseTimeToMinutes` of
`src/trailer-utils.js` lines 41–47 returns 0 on the canonical minute-less
form `"20h"` instead of 1200, so parse-then-re-render is not the identity
there. -/
theorem parseTime_counterexample :
    renderTime 20 0 = "20h" ∧ trailerParseTimeToMinutes "20h" = 0 ∧ (0 : Nat) ≠ 60 * 20 + 0 :=
  ⟨by decide, by decide, by decide⟩

/-- Claim C2 (amended): for every canonical time (`Hh` with minutes absent,
or `HhMM` with `1 ≤ M ≤ 59`, `H ≤ 23`), the `parseTimeToMinutes` of
`src/app.js` recovers `60·H + M` and re-rendering yields the original
string; the minutes-required variant of `src/trailer-utils.js` lines 41–47
does so only on the `HhMM` forms. -/
theorem parseTime_roundTrip_amended (h m : Nat) (hh : h ≤ 23) (hm : m ≤ 59) :
    appParseTimeToMinutes (renderTime h m) = 60 * h + m ∧
      renderOfMinutes (appParseTimeToMinutes (renderTime h m)) = renderTime h m ∧
      (1 ≤ m → trailerParseTimeToMinutes (renderTime h m) = 60 * h + m) := by
  obtain ⟨k1, k2, k3⟩ := timeRoundTrip_bounded ⟨h, by omega⟩ ⟨m, by omega⟩
  refine ⟨k1, ?_, k3⟩
  rw [k1]
  exact k2

theorem parseTime_roundTrip_witness :
    appParseTimeToMinutes (renderTime 20 30) = 60 * 20 + 30 ∧
      renderOfMinutes (appParseTimeToMinutes (renderTime 20 30)) = renderTime 20 30 ∧
      (1 ≤ 30 → trailerParseTimeToMinutes (renderTime 20 30) = 60 * 20 + 30) :=
  parseTime_roundTrip_amended 20 30 (by decide) (by decide)

/-- Claim C9: `getValidatedTrailerUrl` (with the throwing `new URL`
constructor modelled as an arbitrary total parser returning `none` for the
caught exception, so the embedding never throws) returns either `null` or
a URL whose protocol is `https:` and whose hostname/pathname is
`www.youtube.com` with `/watch`, or `youtu.be` with a non-empty pathname
other than `/`. -/
theorem getValidatedTrailerUrl_safe (parseUrl : String → Option UrlParts) (rawUrl : String) :
    getValidatedTrailerUrl parseUrl rawUrl = none ∨
      ∃ u, getValidatedTrailerUrl parseUrl rawUrl = some u ∧
        u.protocol = "https:" ∧
        ((u.hostname = "www.youtube.com" ∧ u.pathname = "/watch") ∨
          (u.hostname = "youtu.be" ∧ u.pathname ≠ "" ∧ u.pathname ≠ "/")) := by
  unfold getValidatedTrailerUrl
  split
  · exact Or.inl rfl
  split
  · exact Or.inl rfl
  rename_i url heq
  split
  · exact Or.inl rfl
  rename_i h1
  split
  · exact Or.inl rfl
  rename_i h2
  split
  · exact Or.inl rfl
  rename_i h3
  simp only [Bool.or_eq_true, Bool.and_eq_true, Bool.not_eq_true', bne_iff_ne, beq_iff_eq,
    Bool.or_eq_false_iff, beq_eq_false_iff_ne, ne_eq, not_or, not_and, not_not] at h1 h2 h3
  refine Or.inr ⟨url, rfl, ?_, ?_⟩
  · tauto
  · by_cases hA : url.hostname = "www.youtube.com"
    · left
      exact ⟨hA, by tauto⟩
    · right
      have hB : url.hostname = "youtu.be" := by tauto
      exact ⟨hB, by tauto, by tauto⟩

theorem screeningKey_inj {a b : Screening} (h : screeningKey a = screeningKey b) : a = b := by
  cases a; cases b
  simp only [screeningKey, Prod.mk.injEq] at h
  obtain ⟨h1, h2, h3, h4, h5⟩ := h
  simp [h1, h2, h3, h4, h5]

theorem mem_dedupAux (l : List Screening) :
    ∀ (seen : List (String × String × Nat × String × String)) (x : Screening),
      x ∈ dedupAux seen l ↔ x ∈ l ∧ screeningKey x ∉ seen := by
  induction l with
  | nil => intro seen x; simp [dedupAux]
  | cons s rest ih =>
    intro seen x
    by_cases hs : screeningKey s ∈ seen
    · rw [dedupAux, if_pos hs, ih]
      constructor
      · rintro ⟨h1, h2⟩
        exact ⟨List.mem_cons_of_mem _ h1, h2⟩
      · rintro ⟨h1, h2⟩
        rcases List.mem_cons.mp h1 with h | h
        · exact absurd (h ▸ hs) h2
        · exact ⟨h, h2⟩
    · rw [dedupAux, if_neg hs]
      constructor
      · intro hx
        rcases List.mem_cons.mp hx with h | h
        · exact ⟨h ▸ List.mem_cons_self _ _, h ▸ hs⟩
        · obtain ⟨h1, h2⟩ := (ih _ x).mp h
          refine ⟨List.mem_cons_of_mem _ h1, fun hmem => h2 (List.mem_cons_of_mem _ hmem)⟩
      · rintro ⟨h1, h2⟩
        rcases List.mem_cons.mp h1 with h | h
        · exact h ▸ List.mem_cons_self _ _
        · by_cases hkey : screeningKey x = screeningKey s
          · exact (screeningKey_inj hkey) ▸ List.mem_cons_self _ _
          · refine List.mem_cons_of_mem _ ((ih _ x).mpr ⟨h, ?_⟩)
            intro hmem
            rcases List.mem_cons.mp hmem with h' | h'
            · exact hkey h'
            · exact h2 h'

theorem mem_dedupScreenings (l : List Screening) (x : Screening) :
    x ∈ dedupScreenings l ↔ x ∈ l := by
  unfold dedupScreenings
  rw [mem_dedupAux]
  simp

theorem dedupAux_pairwise (l : List Screening) :
    ∀ (seen : List (String × String × Nat × String × String)),
      (dedupAux seen l).Pairwise (fun a b => screeningKey a ≠ screeningKey b) := by
  induction l with
  | nil => intro seen; simp [dedupAux]
  | cons s rest ih =>
    intro seen
    by_cases hs : screeningKey s ∈ seen
    · rw [dedupAux, if_pos hs]
      exact ih seen
    · rw [dedupAux, if_neg hs]
      refine List.Pairwise.cons ?_ (ih _)
      intro b hb
      have := ((mem_dedupAux rest _ b).mp hb).2
      intro hkey
      exact this (hkey ▸ List.mem_cons_self _ _)

/-- Claim C1: after the cross-page merge and deduplication, no two records
of the final Screening set share the full (cinema, movie_title, date,
time, version) tuple: the merged list is pairwise distinct on the full
five-field key. -/
theorem crossPageMerge_key_pairwise (pages : List (List Screening)) :
    (crossPageMerge pages).Pairwise (fun a b => screeningKey a ≠ screeningKey b) :=
  dedupAux_pairwise _ _

theorem runFrom_append (st : ExtState) (xs ys : List Line) :
    runFrom st (xs ++ ys) =
      ((runFrom (runFrom st xs).1 ys).1,
        (runFrom st xs).2 ++ (runFrom (runFrom st xs).1 ys).2) := by
  induction xs generalizing st with
  | nil => simp [runFrom]
  | cons l ls ih => simp [runFrom, ih, List.append_assoc]

theorem runFrom_selfContained (st : ExtState) (c : String) (a : Nat) (m : String)
    (rest : List Line) :
    runFrom st (Line.cinemaHeader c :: Line.dateRange a :: Line.movieHeader m :: rest) =
      runFrom initExtState
        (Line.cinemaHeader c :: Line.dateRange a :: Line.movieHeader m :: rest) := by
  simp +decide [runFrom, step, initExtState]

theorem extractPage_append_selfContained (p1 : List Line) (c : String) (a : Nat) (m : String)
    (rest : List Line) :
    extractPage (p1 ++ (Line.cinemaHeader c :: Line.dateRange a :: Line.movieHeader m :: rest)) =
      extractPage p1 ++
        extractPage (Line.cinemaHeader c :: Line.dateRange a :: Line.movieHeader m :: rest) := by
  unfold extractPage
  rw [runFrom_append, runFrom_selfContained]

/-- Claim C7 (counterexample): the merge-equals-one-page property fails for
a page that does not establish its own context: page 2 opens directly with
a movie header and time row, so alone it yields nothing (no anchor — the
rows are skipped), while the concatenation resolves its rows against page
1's leftover cinema and anchor. -/
theorem mergePages_counterexample :
    (Screening.mk "CINEMA X" "AUTRE" 1 "18h" "VF" ∈
        dedupScreenings (extractPage
          ([Line.cinemaHeader "CINEMA X", Line.dateRange 0, Line.movieHeader "LE FILM",
            Line.timeRow 0 [("20h30", "VOST")]] ++
           [Line.movieHeader "AUTRE", Line.timeRow 1 [("18h", "VF")]]))) ∧
      Screening.mk "CINEMA X" "AUTRE" 1 "18h" "VF" ∉
        mergePages
          [Line.cinemaHeader "CINEMA X", Line.dateRange 0, Line.movieHeader "LE FILM",
            Line.timeRow 0 [("20h30", "VOST")]]
          [Line.movieHeader "AUTRE", Line.timeRow 1 [("18h", "VF")]] := by
  constructor
  · decide
  · decide

/-- Claim C7 (amended): for pages that are self-contained (each opens with
a cinema header, a date-range header and a movie header before its time
rows), merging the two per-page Screening sets in either order and
deduplicating over the full tuple yields exactly the same set as
deduplicating the screenings extracted from the direct concatenation of
the two pages' lines. -/
theorem mergePages_orderInsensitive (c1 c2 : String) (a1 a2 : Nat) (m1 m2 : String)
    (r1 r2 : List Line) (x : Screening) :
    (x ∈ mergePages (Line.cinemaHeader c1 :: Line.dateRange a1 :: Line.movieHeader m1 :: r1)
        (Line.cinemaHeader c2 :: Line.dateRange a2 :: Line.movieHeader m2 :: r2) ↔
      x ∈ dedupScreenings (extractPage
        ((Line.cinemaHeader c1 :: Line.dateRange a1 :: Line.movieHeader m1 :: r1) ++
          (Line.cinemaHeader c2 :: Line.dateRange a2 :: Line.movieHeader m2 :: r2)))) ∧
    (x ∈ mergePages (Line.cinemaHeader c2 :: Line.dateRange a2 :: Line.movieHeader m2 :: r2)
        (Line.cinemaHeader c1 :: Line.dateRange a1 :: Line.movieHeader m1 :: r1) ↔
      x ∈ dedupScreenings (extractPage
        ((Line.cinemaHeader c1 :: Line.dateRange a1 :: Line.movieHeader m1 :: r1) ++
          (Line.cinemaHeader c2 :: Line.dateRange a2 :: Line.movieHeader m2 :: r2)))) := by
  have hsplit12 := extractPage_append_selfContained
    (Line.cinemaHeader c1 :: Line.dateRange a1 :: Line.movieHeader m1 :: r1) c2 a2 m2 r2
  constructor
  · unfold mergePages pageScreenings
    rw [hsplit12]
    simp only [mem_dedupScreenings, List.mem_append]
  · unfold mergePages pageScreenings
    rw [hsplit12]
    simp only [mem_dedupScreenings, List.mem_append]
    tauto

/-- Claim C5: when a date-range header carries no printed year, both bounds
get year 2025, except that a December→January crossing gives the second
bound the first bound's year plus one. -/
theorem resolveRangeHeader_year (d1 m1 d2 m2 : Nat) :
    (resolveRangeHeader d1 m1 d2 m2 none).1.year = 2025 ∧
      ((m1 = 12 ∧ m2 = 1) →
        (resolveRangeHeader d1 m1 d2 m2 none).2.year =
          (resolveRangeHeader d1 m1 d2 m2 none).1.year + 1) ∧
      (¬(m1 = 12 ∧ m2 = 1) → (resolveRangeHeader d1 m1 d2 m2 none).2.year = 2025) := by
  refine ⟨rfl, ?_, ?_⟩
  · rintro ⟨h1, h2⟩
    subst h1; subst h2
    rfl
  · intro h
    unfold resolveRangeHeader
    simp only [Option.getD_none]
    rw [if_neg]
    simp only [Bool.and_eq_true, decide_eq_true_eq]
    tauto

theorem resolveRangeHeader_year_witness :
    (resolveRangeHeader 27 12 2 1 none).1.year = 2025 ∧
      (resolveRangeHeader 27 12 2 1 none).2.year = 2026 ∧
      (resolveRangeHeader 3 9 9 9 none).2.year = 2025 := by
  refine ⟨(resolveRangeHeader_year 27 12 2 1).1, ?_,
    (resolveRangeHeader_year 3 9 9 9).2.2 (by simp)⟩
  have h := (resolveRangeHeader_year 27 12 2 1).2.1 ⟨rfl, rfl⟩
  rw [(resolveRangeHeader_year 27 12 2 1).1] at h
  exact h

theorem pairAt_version (w : Nat) (toks : List RowTok) (i : Nat) (pr : String × String)
    (h : pairAt w toks i = some pr) :
    (pr.2 = "VF" ∨ pr.2 = "VOST") ∧ (markerNearby w toks i = false → pr.2 = "VF") := by
  unfold pairAt at h
  split at h
  · split at h
    · rename_i hok
      cases h
      by_cases hm : markerNearby w toks i
      · constructor
        · right
          simp [hm]
        · intro hfalse
          rw [hm] at hfalse
          cases hfalse
      · have hm' : markerNearby w toks i = false := by simpa using hm
        constructor
        · left
          simp [hm']
        · intro _
          simp [hm']
    · cases h
  · cases h

theorem runFrom_emission_from_timeRow (lines : List Line) :
    ∀ (st : ExtState) (s : Screening), s ∈ (runFrom st lines).2 →
      ∃ d ps, Line.timeRow d ps ∈ lines ∧ (s.time, s.version) ∈ ps := by
  induction lines with
  | nil => intro st s hs; simp [runFrom] at hs
  | cons l ls ih =>
    intro st s hs
    simp only [runFrom, List.mem_append] at hs
    rcases hs with hs | hs
    · cases l with
      | timeRow d ps =>
        refine ⟨d, ps, List.mem_cons_self _ _, ?_⟩
        simp only [step] at hs
        split at hs
        · obtain ⟨pv, hpv, hsv⟩ := List.mem_map.mp hs
          rw [← hsv]
          exact hpv
        · simp at hs
      | cinemaHeader name => simp [step] at hs
      | dateRange a =>
        simp only [step] at hs
        split at hs <;> simp at hs
      | movieHeader t =>
        simp only [step] at hs
        split at hs <;> simp at hs
      | noise => simp [step] at hs
    · obtain ⟨d, ps, hmem, hpv⟩ := ih _ s hs
      exact ⟨d, ps, List.mem_cons_of_mem _ hmem, hpv⟩

/-- Claim C6: every (time, version) pair emitted by the row parser has
version exactly `"VF"` or `"VOST"`, with `"VF"` whenever no marker lies in
the lookaround window; consequently every Screening emitted by the
extractor from rows produced by the row parser carries version `"VF"` or
`"VOST"`, never an empty or missing one. -/
theorem screening_version_enum :
    (∀ w toks i pr, pairAt w toks i = some pr →
        ((pr.2 = "VF" ∨ pr.2 = "VOST") ∧ (markerNearby w toks i = false → pr.2 = "VF"))) ∧
      (∀ lines : List Line,
        (∀ l ∈ lines, ∀ d ps, l = Line.timeRow d ps → ∃ w toks, ps = parseRow w toks) →
        ∀ s ∈ extractPage lines, s.version = "VF" ∨ s.version = "VOST") := by
  constructor
  · exact pairAt_version
  · intro lines hrows s hs
    obtain ⟨d, ps, hmem, hpv⟩ := runFrom_emission_from_timeRow lines initExtState s hs
    obtain ⟨w, toks, hps⟩ := hrows _ hmem d ps rfl
    rw [hps] at hpv
    obtain ⟨i, _, hi⟩ := List.mem_filterMap.mp hpv
    have := (pairAt_version w toks i _ hi).1
    simpa using this

theorem screening_version_enum_witness :
    ∀ s ∈ extractPage [Line.cinemaHeader "CINEMA X", Line.dateRange 0,
        Line.movieHeader "LE FILM",
        Line.timeRow 0 (parseRow 1 [RowTok.timeTok 20 30, RowTok.vostMarker])],
      s.version = "VF" ∨ s.version = "VOST" := by
  apply screening_version_enum.2
  intro l hl d ps hps
  simp only [List.mem_cons, List.not_mem_nil, or_false] at hl
  rcases hl with rfl | rfl | rfl | rfl
  · cases hps
  · cases hps
  · cases hps
  · cases hps
    exact ⟨1, [RowTok.timeTok 20 30, RowTok.vostMarker], rfl⟩

theorem char_toNat_inj {a b : Char} (h : a.toNat = b.toNat) : a = b :=
  Char.ext (UInt32.ext h)

theorem lexLtCh_trans :
    ∀ (a b c : List Char), lexLtCh a b = true → lexLtCh b c = true → lexLtCh a c = true := by
  intro a
  induction a with
  | nil =>
    intro b c hab hbc
    cases b with
    | nil => simp [lexLtCh] at hab
    | cons y bs =>
      cases c with
      | nil => simp [lexLtCh] at hbc
      | cons z cs => simp [lexLtCh]
  | cons x as ih =>
    intro b c hab hbc
    cases b with
    | nil => simp [lexLtCh] at hab
    | cons y bs =>
      cases c with
      | nil => simp [lexLtCh] at hbc
      | cons z cs =>
        unfold lexLtCh at hab hbc ⊢
        by_cases h1 : x.toNat < y.toNat <;> by_cases h2 : y.toNat < z.toNat <;>
          by_cases h3 : y.toNat < x.toNat <;> by_cases h4 : z.toNat < y.toNat <;>
          simp [h1, h2, h3, h4] at hab hbc ⊢ <;>
          first
            | omega
            | (exact Or.inr ⟨by omega, ih bs cs hab hbc⟩)

theorem lexLtCh_connex :
    ∀ (a b : List Char), lexLtCh a b = false → lexLtCh b a = false → a = b := by
  intro a
  induction a with
  | nil =>
    intro b h1 h2
    cases b with
    | nil => rfl
    | cons y bs => simp [lexLtCh] at h1
  | cons x as ih =>
    intro b h1 h2
    cases b with
    | nil => simp [lexLtCh] at h2
    | cons y bs =>
      unfold lexLtCh at h1 h2
      by_cases hxy : x.toNat < y.toNat
      · simp [hxy] at h1
      by_cases hyx : y.toNat < x.toNat
      · simp [hxy, hyx] at h2
      have hx : x = y := char_toNat_inj (by omega)
      simp only [if_neg hxy, if_neg hyx] at h1 h2
      rw [hx, ih bs h1 h2]

theorem screeningLe_total : ∀ a b : AppRecord, screeningLe a b ∨ screeningLe b a := by
  intro a b
  by_cases h1 : strLt a.dateISO b.dateISO = true
  · exact Or.inl (Or.inl h1)
  by_cases h2 : strLt b.dateISO a.dateISO = true
  · exact Or.inr (Or.inl h2)
  have heq : a.dateISO = b.dateISO :=
    String.ext (lexLtCh_connex a.dateISO.data b.dateISO.data
      (by simpa [strLt] using h1) (by simpa [strLt] using h2))
  rcases Nat.le_total a.timeMinutes b.timeMinutes with h | h
  · exact Or.inl (Or.inr ⟨heq, h⟩)
  · exact Or.inr (Or.inr ⟨heq.symm, h⟩)

theorem screeningLe_trans :
    ∀ a b c : AppRecord, screeningLe a b → screeningLe b c → screeningLe a c := by
  intro a b c hab hbc
  rcases hab with hab | ⟨hab, hab'⟩
  · rcases hbc with hbc | ⟨hbc, _⟩
    · exact Or.inl (lexLtCh_trans _ _ _ hab hbc)
    · exact Or.inl (hbc ▸ hab)
  · rcases hbc with hbc | ⟨hbc, hbc'⟩
    · exact Or.inl (hab ▸ hbc)
    · exact Or.inr ⟨hab.trans hbc, hab'.trans hbc'⟩

/-- Claim C10: the list returned by `buildFilteredList` is sorted by date
ascending (string order on ISO dates) with ties broken by time-in-minutes
ascending, and when `state.showAllDates` is false every returned screening
has a date not earlier than today's. -/
theorem buildFilteredList_sorted_future (st : FilterState) (todayISO : String)
    (records : List AppRecord) :
    (buildFilteredList st todayISO records).Sorted screeningLe ∧
      (st.showAllDates = false →
        ∀ x ∈ buildFilteredList st todayISO records, strLt x.dateISO todayISO = false) := by
  constructor
  · haveI : IsTotal AppRecord screeningLe := ⟨screeningLe_total⟩
    haveI : IsTrans AppRecord screeningLe := ⟨fun a b c => screeningLe_trans a b c⟩
    exact List.sorted_insertionSort _ _
  · intro hshow x hx
    have hx' : x ∈ records.filter (screeningPasses st todayISO) :=
      (List.perm_insertionSort screeningLe _).mem_iff.mp hx
    have hpass := List.of_mem_filter hx'
    by_contra hlt
    have hlt' : strLt x.dateISO todayISO = true := by
      simpa using hlt
    unfold screeningPasses at hpass
    rw [hshow] at hpass
    simp [hlt'] at hpass

theorem buildFilteredList_witness :
    (buildFilteredList (FilterState.mk false [] 0 true true true [] []) "2025-10-11"
        [AppRecord.mk "C" "M" "2025-12-01" 1200 "VF" "",
         AppRecord.mk "C" "M" "2025-11-01" 600 "VF" ""]).Sorted screeningLe ∧
      ∀ x ∈ buildFilteredList (FilterState.mk false [] 0 true true true [] []) "2025-10-11"
          [AppRecord.mk "C" "M" "2025-12-01" 1200 "VF" "",
           AppRecord.mk "C" "M" "2025-11-01" 600 "VF" ""],
        strLt x.dateISO "2025-10-11" = false :=
  ⟨(buildFilteredList_sorted_future _ _ _).1,
    (buildFilteredList_sorted_future _ _ _).2 rfl⟩
